import Mathlib

/-!
Verification of the sash command-dispatch core.

This file embeds the data model and operations of the sash repository
(hierarchical command tree, mode-stack shell dispatcher, and the
variable-substitution engine) as executable Lean definitions and proves
properties of them.  Lines of input are modelled as `List Char`
(the C++ code works on `std::string` iterators, i.e. character
sequences).
-/

namespace Sash

/-- A line of input / a piece of text, as the character sequence the C++
iterators traverse. -/
abbrev Str := List Char

/-- `enum command_result { executed, nop, no_command }` from command.hpp. -/
inductive CommandResult where
  | executed
  | nop
  | noCommand
deriving DecidableEq, Repr

/-- A command callback (`CommandCallback`): it receives the error string
(by reference, so it gets the current contents and returns the new ones)
and the remaining input range, and yields a result code. -/
abbrev Handler := Str → Str → Str × CommandResult

/-- A node of the command tree (`sash::command`).  A node owns its name,
one-line description, an optional execution handler (a default-constructed
`std::function` is empty, modelled as `none`) and the ordered list of its
children.  The C++ parent back-pointer is not part of the value; where it
matters (`absolute_name`) the ancestor names are passed explicitly. -/
inductive Cmd where
  | node (name : Str) (description : Str) (handler : Option Handler)
         (children : List Cmd)

/-- `command::name()` -/
def Cmd.name : Cmd → Str
  | .node n _ _ _ => n

/-- `command::description()` -/
def Cmd.description : Cmd → Str
  | .node _ d _ _ => d

/-- the `handler_` member -/
def Cmd.handler : Cmd → Option Handler
  | .node _ _ h _ => h

/-- `command::children()` -/
def Cmd.children : Cmd → List Cmd
  | .node _ _ _ cs => cs

/-- `auto delim = std::find(first, last, ' ')` together with the recursion
argument `delim == last ? std::string{} : std::string(delim + 1, last)`:
the candidate token before the first space, and the rest behind the first
space (`none` when the input holds no space). -/
def splitAtSpace : Str → Str × Option Str
  | [] => ([], none)
  | c :: cs =>
    if c = ' ' then ([], some cs)
    else
      let r := splitAtSpace cs
      (c :: r.1, r.2)

mutual
/-- `command::execute(err, first, last)` from command.hpp (part_000).
`isRoot` models `is_root()` (whether `parent_ == nullptr`); the
recursion always passes `false` because every child has a parent.
Returns the new contents of `err` and the result code. -/
def Cmd.exec (isRoot : Bool) (t : Cmd) (err inp : Str) : Str × CommandResult :=
  match t with
  | .node _ _ h cs =>
    if isRoot = true ∧ inp = [] then (err, .nop)
    else
      let s := splitAtSpace inp
      match Cmd.execFirstMatch s.1 (s.2.getD []) err cs with
      | some r => r
      | none =>
        match h with
        | some f => f err inp
        | none => (s.1 ++ (": command not found").data, .noCommand)

/-- The `for (auto& cmd : children_)` loop of `command::execute`: the
first child whose name equals the candidate token is executed with the
remainder of the input. -/
def Cmd.execFirstMatch (tok rest err : Str) : List Cmd → Option (Str × CommandResult)
  | [] => none
  | c :: cs =>
    if c.name = tok then some (Cmd.exec false c err rest)
    else Cmd.execFirstMatch tok rest err cs
end

/-- `command::add(name, desc)` from command.hpp (part_000): fails
(`nullptr`, here `none`) when the name is empty or already taken by a
sibling; otherwise appends a new child (fresh nodes have no handler and
no children) and returns the updated parent.  The registration of the
child's absolute name with the completer is a side effect on the
completion context, outside the tree itself, and is not modelled. -/
def Cmd.add (t : Cmd) (nm d : Str) : Option Cmd :=
  match t with
  | .node n desc h cs =>
    if nm = [] ∨ cs.any (fun c => c.name = nm) then none
    else some (.node n desc h (cs ++ [.node nm d none []]))

/-- `command::absolute_name()` from command.hpp (part_000).  The node is
given by its own name together with the names of its ancestors, nearest
parent first (the last entry is the root's name, matching the traversal
`for (auto i = parent_; i != nullptr; i = i->parent_)`); `ancestors = []`
means the node is the root.  The C++ builds the string reversed and
reverses it in place at the end. -/
def absoluteName (name : Str) (ancestors : List Str) : Str :=
  if ancestors.isEmpty then []
  else
    (ancestors.foldl
      (fun r a => (if r ≠ [] then r ++ [' '] else r) ++ a.reverse)
      name.reverse).reverse

/-! ## The variable-substitution engine (variables_engine.hpp, part_001) -/

/-- `valid_varname_char`: `std::isalnum(c) || c == '_'` (the default "C"
locale: ASCII letters and digits). -/
def validVarnameChar (c : Char) : Bool :=
  c.isAlphanum || c = '_'

/-- The `variables_` member, a `std::map<std::string, std::string>`,
modelled as an association list with unique keys (all reachable states
have unique keys; only `find`, `emplace`, `operator[]` and `erase` are
used, so ordering is irrelevant). -/
abbrev Bindings := List (Str × Str)

/-- `variables_.find(varname)` -/
def lookupVar : Bindings → Str → Option Str
  | [], _ => none
  | (k, v) :: m, key => if k = key then some v else lookupVar m key

/-- `variables_.emplace(key, value)`: inserts only when the key is not
yet present (a `std::map` emplace never overwrites). -/
def emplaceVar (m : Bindings) (k v : Str) : Bindings :=
  if (lookupVar m k).isSome then m else m ++ [(k, v)]

/-- `variables_[identifier] = value` as used by `variables_engine::set`:
overwrites an existing binding, inserts otherwise. -/
def setVar : Bindings → Str → Str → Bindings
  | [], k, v => [(k, v)]
  | (k', v') :: m, k, v =>
    if k' = k then (k, v) :: m else (k', v') :: setVar m k v

/-- `variables_.erase(identifier)` as used by `variables_engine::unset`. -/
def unsetVar : Bindings → Str → Bindings
  | [], _ => []
  | (k', v') :: m, k => if k' = k then m else (k', v') :: unsetVar m k

/-- The scanner states of `variables_engine::parse`. -/
inductive VState where
  | traverse
  | afterDollarSign
  | readVariable
  | readBracedVariable
deriving DecidableEq, Repr

/-- `set_error()`: the stream insertion
`"syntax error at position " << std::to_string(i) << ": " << …`. -/
def errAt (i : Nat) (msg : Str) : Str :=
  ("syntax error at position ").data ++ (Nat.repr i).data ++ (": ").data ++ msg

/-- The direct assignment `err = "syntax error: missing '}' at end of line"`
performed after the scan loop when the braced state is still open. -/
def missingBraceMsg : Str :=
  ("syntax error: missing '\x7d' at end of line").data

/-- The result of one run of the scan loop of `variables_engine::parse`:
`oss` is what `set_error()` wrote into the `raii_error_string` stream
(empty when no error was streamed), `direct` a direct assignment to `err`
(the missing-`}` message), `out` the final contents of the output buffer
and `vars` the final binding table.  On destruction the RAII guard
overwrites `err` with `oss` exactly when `oss` is non-empty. -/
structure ParseOut where
  oss : Str
  direct : Option Str
  out : Str
  vars : Bindings
deriving DecidableEq, Repr

/-- The scan loop of `variables_engine::parse` in sub-parse mode
(`sub_parse == true`), where the assignment branch of `case '='` is
disabled and `=` simply falls out of the switch.  The loop state is
carried explicitly: `rest` is the unread input, `i` the current byte
offset (for error messages), `pending` the characters of `in` from `pos`
up to the cursor (the slice `[pos, i)` flushed verbatim, or the variable
name being read), `st` the scanner state, `lastc` the previous character
(initially a space) and `out` the output accumulated so far.  The
`flush()` lambda of the C++ is inlined at each place it is invoked. -/
def parseSubAux (vars : Bindings) :
    Str → Nat → Str → VState → Char → Str → ParseOut
  | [], i, pending, st, lastc, out =>
    -- end of the while loop: possibly record the missing '}' and flush
    match st with
    | .traverse => ⟨[], none, out ++ pending, vars⟩
    | .afterDollarSign => ⟨errAt i ("$ at end of line").data, none, [], vars⟩
    | .readVariable => ⟨[], none, out ++ (lookupVar vars pending).getD [], vars⟩
    | .readBracedVariable =>
      if ¬ validVarnameChar lastc ∧ lastc ≠ '}' then
        ⟨errAt i (('\'' :: [lastc]) ++ ("' is an invalid character inside $\x7b...\x7d").data),
         some missingBraceMsg, out, vars⟩
      else
        ⟨[], some missingBraceMsg, out ++ (lookupVar vars pending).getD [], vars⟩
  | c :: rest, i, pending, st, lastc, out =>
    if c = '=' then
      -- case '=': in sub-parse mode the check is skipped and '=' is kept
      parseSubAux vars rest (i + 1) (pending ++ [c]) st c out
    else if c = '$' then
      if lastc = '\\' then
        parseSubAux vars rest (i + 1) (pending ++ [c]) st c out
      else
        match st with
        | .traverse =>
          parseSubAux vars rest (i + 1) [] .afterDollarSign c (out ++ pending)
        | .afterDollarSign =>
          ⟨errAt i ("$$ is not a valid expression").data, none, [], vars⟩
        | .readVariable =>
          parseSubAux vars rest (i + 1) [] .afterDollarSign c
            (out ++ (lookupVar vars pending).getD [])
        | .readBracedVariable =>
          ⟨errAt i (('\'' :: [c]) ++ ("' is an invalid character inside $\x7b...\x7d").data),
           none, out, vars⟩
    else if c = '{' then
      if st = .afterDollarSign then
        parseSubAux vars rest (i + 1) [] .readBracedVariable c out
      else
        parseSubAux vars rest (i + 1) (pending ++ [c]) st c out
    else if c = '}' ∧ st = .readBracedVariable then
      parseSubAux vars rest (i + 1) [] .traverse c
        (out ++ (lookupVar vars pending).getD [])
    else
      -- the default case ('}' outside a braced variable falls through here)
      match st with
      | .traverse =>
        parseSubAux vars rest (i + 1) (pending ++ [c]) .traverse c out
      | .afterDollarSign =>
        if validVarnameChar c then
          parseSubAux vars rest (i + 1) [c] .readVariable c out
        else
          ⟨errAt i (("unexpected character '").data ++ [c] ++ ("' after $").data),
           none, [], vars⟩
      | .readVariable =>
        if validVarnameChar c then
          parseSubAux vars rest (i + 1) (pending ++ [c]) .readVariable c out
        else
          parseSubAux vars rest (i + 1) [c] .traverse c
            (out ++ (lookupVar vars pending).getD [])
      | .readBracedVariable =>
        if validVarnameChar c then
          parseSubAux vars rest (i + 1) (pending ++ [c]) .readBracedVariable c out
        else
          ⟨errAt i (('\'' :: [c]) ++ ("' is an invalid character inside $\x7b...\x7d").data),
           none, out, vars⟩

/-- The RAII destructor of `raii_error_string` combined with the direct
assignments to `err`: the final contents of `err` given its contents on
entry. -/
def finishErr (err0 : Str) (r : ParseOut) : Str :=
  if r.oss ≠ [] then r.oss else r.direct.getD err0

/-- The scan loop of `variables_engine::parse` in top-level mode
(`sub_parse == false`).  Identical to `parseSubAux` except for the
assignment branch of `case '='`: `posAtStart` models `pos == in.begin()`
(it is falsified by every reassignment of `pos`, all of which move `pos`
behind position 0), `pending ≠ []` models `i != pos`, and the
recursively parsed right-hand side uses the sub-parse loop.  `err0` is
the content of the caller's `err` string, read by the
`if (err.empty())` check guarding the `emplace`. -/
def parseTopAux (err0 : Str) (vars : Bindings) :
    Str → Nat → Str → Bool → VState → Char → Str → ParseOut
  | [], i, pending, _, st, lastc, out =>
    match st with
    | .traverse => ⟨[], none, out ++ pending, vars⟩
    | .afterDollarSign => ⟨errAt i ("$ at end of line").data, none, [], vars⟩
    | .readVariable => ⟨[], none, out ++ (lookupVar vars pending).getD [], vars⟩
    | .readBracedVariable =>
      if ¬ validVarnameChar lastc ∧ lastc ≠ '}' then
        ⟨errAt i (('\'' :: [lastc]) ++ ("' is an invalid character inside $\x7b...\x7d").data),
         some missingBraceMsg, out, vars⟩
      else
        ⟨[], some missingBraceMsg, out ++ (lookupVar vars pending).getD [], vars⟩
  | c :: rest, i, pending, posAtStart, st, lastc, out =>
    if c = '=' then
      if pending ≠ [] ∧ posAtStart = true ∧ pending.all validVarnameChar then
        -- assignment: key = [begin, i), value input = (i, end)
        let sub := parseSubAux vars rest 0 [] .traverse ' ' []
        let err1 := finishErr err0 sub
        ⟨[], some err1, [],
         if err1 = [] then emplaceVar vars pending sub.out else vars⟩
      else
        parseTopAux err0 vars rest (i + 1) (pending ++ [c]) posAtStart st c out
    else if c = '$' then
      if lastc = '\\' then
        parseTopAux err0 vars rest (i + 1) (pending ++ [c]) posAtStart st c out
      else
        match st with
        | .traverse =>
          parseTopAux err0 vars rest (i + 1) [] false .afterDollarSign c (out ++ pending)
        | .afterDollarSign =>
          ⟨errAt i ("$$ is not a valid expression").data, none, [], vars⟩
        | .readVariable =>
          parseTopAux err0 vars rest (i + 1) [] false .afterDollarSign c
            (out ++ (lookupVar vars pending).getD [])
        | .readBracedVariable =>
          ⟨errAt i (('\'' :: [c]) ++ ("' is an invalid character inside $\x7b...\x7d").data),
           none, out, vars⟩
    else if c = '{' then
      if st = .afterDollarSign then
        parseTopAux err0 vars rest (i + 1) [] false .readBracedVariable c out
      else
        parseTopAux err0 vars rest (i + 1) (pending ++ [c]) posAtStart st c out
    else if c = '}' ∧ st = .readBracedVariable then
      parseTopAux err0 vars rest (i + 1) [] false .traverse c
        (out ++ (lookupVar vars pending).getD [])
    else
      match st with
      | .traverse =>
        parseTopAux err0 vars rest (i + 1) (pending ++ [c]) posAtStart .traverse c out
      | .afterDollarSign =>
        if validVarnameChar c then
          parseTopAux err0 vars rest (i + 1) [c] false .readVariable c out
        else
          ⟨errAt i (("unexpected character '").data ++ [c] ++ ("' after $").data),
           none, [], vars⟩
      | .readVariable =>
        if validVarnameChar c then
          parseTopAux err0 vars rest (i + 1) (pending ++ [c]) posAtStart .readVariable c out
        else
          parseTopAux err0 vars rest (i + 1) [c] false .traverse c
            (out ++ (lookupVar vars pending).getD [])
      | .readBracedVariable =>
        if validVarnameChar c then
          parseTopAux err0 vars rest (i + 1) (pending ++ [c]) posAtStart .readBracedVariable c out
        else
          ⟨errAt i (('\'' :: [c]) ++ ("' is an invalid character inside $\x7b...\x7d").data),
           none, out, vars⟩

/-- `variables_engine::parse(err, in, out, sub_parse)`.  `err0` and
`out0` are the contents of the caller's `err` and `out` strings (the
C++ appends to `out`); the result triple is the final contents of
`err`, the final contents of `out`, and the final binding table. -/
def parse (err0 inp out0 : Str) (subParse : Bool) (vars : Bindings) :
    Str × Str × Bindings :=
  let r :=
    if subParse then parseSubAux vars inp 0 [] .traverse ' ' out0
    else parseTopAux err0 vars inp 0 [] true .traverse ' ' out0
  (finishErr err0 r, r.out, r.vars)

/-- The closure produced by `variables_engine::create`, as one chain step:
`[ptr](err, in, out) { ptr->parse(err, in, out); }`.  Given the engine's
current bindings it maps the input line and the current contents of the
output buffer to the new contents of `err` and `out` (the `process` loop
always hands it an empty `err`). -/
def variablesFunctor (vars : Bindings) : Str → Str → Str × Str :=
  fun inp out0 =>
    let r := parse [] inp out0 false vars
    (r.1, r.2.1)

/-! ## The shell dispatcher (command_line.hpp) -/

/-- The preprocessor contract consumed by `command_line::process`: a
callable `p(err, in, out)`.  `process` always hands it an empty `err`,
so a step is modelled as mapping the input line and the current contents
of the (reused) output buffer to the new contents of `err` and `out`. -/
abbrev Preprocessor := Str → Str → Str × Str

/-- The preprocessor loop of `command_line::process` together with the
final dispatch: at entry `last_error_` has just been cleared.  `inp` and
`out` are the two reused buffers (`in` and `out` in the C++); after a
successful step they are swapped, so the stale previous input becomes
the next step's initial output buffer.  `active` is
`mode_stack_.back()`'s root command. -/
def chainLoop (active : Cmd) : List Preprocessor → Str → Str → Str × CommandResult
  | [], inp, _ => Cmd.exec true active [] inp
  | p :: ps, inp, out =>
    let r := p inp out
    if r.1 ≠ [] then (r.1, .noCommand)
    else if r.2 = [] then ([], .executed)
    else chainLoop active ps r.2 inp

/-- `command_line::process(cmd)`.  The mode stack is modelled with its
top (`mode_stack_.back()`) at the head of the list and each mode reduced
to its root command, which is all `process` consults; `lastError0` is
the current contents of `last_error_`.  Returns the new contents of
`last_error_` and the result code. -/
def process (modeStack : List Cmd) (pps : List Preprocessor)
    (lastError0 : Str) (cmd : Str) : Str × CommandResult :=
  if cmd = [] then (lastError0, .nop)
  else
    match modeStack with
    | [] => (("command_line: mode stack is empty").data, .noCommand)
    | active :: _ =>
      if pps.isEmpty then Cmd.exec true active lastError0 cmd
      else chainLoop active pps cmd []

/-- The pair of buffers `(in, out)` reaching the preprocessor behind a
given prefix of the chain, provided every step of the prefix succeeds
with a non-empty output (`none` otherwise).  Mirrors the error check,
the empty-output check and the buffer swap of the loop in
`command_line::process`. -/
def chainExec : List Preprocessor → Str → Str → Option (Str × Str)
  | [], inp, out => some (inp, out)
  | p :: ps, inp, out =>
    let r := p inp out
    if r.1 ≠ [] then none
    else if r.2 = [] then none
    else chainExec ps r.2 inp

/-- The composition of the preprocessors' rewrites in registration
order, each applied to the previous result with a fresh (empty) output
buffer — what the specification calls "applying each preprocessor's
rewrite, in registration order, to the input line". -/
def rewrites (pps : List Preprocessor) (s : Str) : Str :=
  pps.foldl (fun acc p => (p acc []).2) s

/-- Every preprocessor of the chain, run on a fresh output buffer,
reports no error and a non-empty output. -/
def chainOk : List Preprocessor → Str → Bool
  | [], _ => true
  | p :: ps, s =>
    let r := p s []
    r.1 == [] && r.2 != [] && chainOk ps r.2

/-! ## Definitions following the specification's words -/

/-- Modelled on the specification's description of `execute` (claim C1):
"splits the remaining input at the first space into a candidate token
and a rest" (`takeWhile`/`dropWhile` at the first space); "if some
child's name exactly equals the candidate token" (`List.find?`),
"recurse into that child with the remainder (without the separating
space, or the empty string if there is none)"; otherwise handler or the
"command not found" diagnostic; root with empty remaining input is a
no-op. -/
def execSpecC1 (isRoot : Bool) (t : Cmd) (err inp : Str) : Str × CommandResult :=
  if isRoot = true ∧ inp = [] then (err, .nop)
  else
    let tok := inp.takeWhile (fun c => c ≠ ' ')
    let rem := (inp.dropWhile (fun c => c ≠ ' ')).drop 1
    match hm : t.children.find? (fun c => c.name = tok) with
    | some c =>
      have : sizeOf c < sizeOf t := by
        have hmem := List.mem_of_find?_eq_some hm
        have h1 : sizeOf c < sizeOf t.children := List.sizeOf_lt_of_mem hmem
        cases t with
        | node n d h cs => simp [Cmd.children] at h1 ⊢; omega
      execSpecC1 false c err rem
    | none =>
      match t.handler with
      | some f => f err inp
      | none => (tok ++ (": command not found").data, .noCommand)
termination_by sizeOf t

/-- Modelled on the specification's words for claim C7: the
space-separated join of a list of names (single spaces, no terminal
separator). -/
def joinNames : List Str → Str
  | [] => []
  | [n] => n
  | n :: rest => n ++ ' ' :: joinNames rest

/-! ## Helper lemmas -/

@[simp] lemma Cmd.name_node (n d : Str) (h : Option Handler) (cs : List Cmd) :
    (Cmd.node n d h cs).name = n := rfl

@[simp] lemma Cmd.children_node (n d : Str) (h : Option Handler) (cs : List Cmd) :
    (Cmd.node n d h cs).children = cs := rfl

@[simp] lemma Cmd.handler_node (n d : Str) (h : Option Handler) (cs : List Cmd) :
    (Cmd.node n d h cs).handler = h := rfl

/-- Running a clean prefix of the preprocessor chain: if `chainExec`
reaches the buffers `(i, o)` behind `ps1`, the loop on `ps1 ++ rest`
continues as the loop on `rest` started at those buffers. -/
lemma chainLoop_append (active : Cmd) (ps1 rest : List Preprocessor) :
    ∀ (inp out i o : Str), chainExec ps1 inp out = some (i, o) →
      chainLoop active (ps1 ++ rest) inp out = chainLoop active rest i o := by
  induction ps1 with
  | nil =>
    intro inp out i o h
    simp [chainExec] at h
    simp [h.1, h.2]
  | cons p ps ih =>
    intro inp out i o h
    rw [chainExec] at h
    rw [List.cons_append, chainLoop]
    by_cases hA : (p inp out).1 = []
    · by_cases hB : (p inp out).2 = []
      · simp [hA, hB] at h
      · simp only [hA, hB] at h ⊢
        simp only [ne_eq, not_true_eq_false, if_false, if_neg hB] at h ⊢
        exact ih _ _ _ _ h
    · simp [hA] at h

lemma lookupVar_setVar (m : Bindings) (k v : Str) :
    lookupVar (setVar m k v) k = some v := by
  induction m with
  | nil => simp [setVar, lookupVar]
  | cons p m ih =>
    by_cases h : p.1 = k
    · simp [setVar, h, lookupVar]
    · simp [setVar, h, lookupVar, ih]

lemma emplaceVar_of_bound (m : Bindings) (k v v0 : Str)
    (h : lookupVar m k = some v0) : emplaceVar m k v = m := by
  simp [emplaceVar, h]

/-! ## C9: processing the empty line and the empty mode stack -/

/-- C9 — `Shell.process("")` is `Nop` in every state of the mode stack,
and a non-empty line with an empty mode stack yields `NoCommand` with a
non-empty diagnostic in `lastError`. -/
theorem c9_process_empty :
    (∀ (stack : List Cmd) (pps : List Preprocessor) (le0 : Str),
      process stack pps le0 [] = (le0, .nop)) ∧
    (∀ (pps : List Preprocessor) (le0 cmd : Str), cmd ≠ [] →
      process [] pps le0 cmd =
        ((("command_line: mode stack is empty")).data, .noCommand) ∧
      ((("command_line: mode stack is empty")).data : Str) ≠ []) := by
  constructor
  · intro stack pps le0
    simp [process]
  · intro pps le0 cmd hcmd
    refine ⟨?_, by decide⟩
    simp [process, hcmd]

/-- Witness for C9 at the concrete line "ls". -/
theorem c9_process_empty_witness :
    (("ls").data : Str) ≠ [] ∧
    process [] [] [] ("ls").data =
      ((("command_line: mode stack is empty")).data, .noCommand) :=
  ⟨by decide, (c9_process_empty.2 [] [] ("ls").data (by decide)).1⟩

/-! ## C5: a preprocessor error aborts the chain -/

/-- C5 — when a preprocessor writes a non-empty error string, `process`
returns `NoCommand` with exactly that message as `lastError`; the
conclusion holds for every suffix `ps2` of later preprocessors and every
mode stack, so no later preprocessor and no command tree is ever
consulted. -/
theorem c5_preprocessor_error (ps1 : List Preprocessor) (p : Preprocessor)
    (cmd i o : Str) (hcmd : cmd ≠ [])
    (hpre : chainExec ps1 cmd [] = some (i, o))
    (herr : (p i o).1 ≠ []) :
    ∀ (ps2 : List Preprocessor) (active : Cmd) (stack : List Cmd) (le0 : Str),
      process (active :: stack) (ps1 ++ p :: ps2) le0 cmd =
        ((p i o).1, .noCommand) := by
  intro ps2 active stack le0
  have hne : (ps1 ++ p :: ps2).isEmpty = false := by cases ps1 <;> simp
  simp only [process, if_neg hcmd, hne, Bool.false_eq_true, if_false]
  rw [chainLoop_append active ps1 (p :: ps2) cmd [] i o hpre]
  rw [chainLoop]
  simp [herr]

/-- Witness for C5: a single always-failing preprocessor aborts a chain
that still has a (line-erasing) preprocessor behind it. -/
theorem c5_preprocessor_error_witness :
    process [Cmd.node ("m").data [] none []]
        ([] ++ (fun _ _ => ((("bad")).data, [])) ::
          [(fun _ _ => ([], []) : Preprocessor)]) [] ("x").data =
      ((("bad")).data, .noCommand) :=
  c5_preprocessor_error [] (fun _ _ => ((("bad")).data, []))
    ("x").data ("x").data [] (by decide) (by simp [chainExec]) (by decide)
    [(fun _ _ => ([], []))] (Cmd.node ("m").data [] none []) [] []

/-! ## C4: the preprocessor chain and the dispatched string -/

/-- When every preprocessor's output is insensitive to the initial
contents of its output buffer, a chain that reports no error and never
produces an empty output dispatches the fold of the rewrites. -/
lemma chainLoop_ok (active : Cmd) :
    ∀ (pps : List Preprocessor) (inp out : Str),
      (∀ p ∈ pps, ∀ s o1 o2, p s o1 = p s o2) →
      chainOk pps inp = true →
      chainLoop active pps inp out = Cmd.exec true active [] (rewrites pps inp) := by
  intro pps
  induction pps with
  | nil => intro inp out _ _; simp [chainLoop, rewrites]
  | cons p ps ih =>
    intro inp out hins hok
    rw [chainOk] at hok
    simp only [Bool.and_eq_true, beq_iff_eq, bne_iff_ne, ne_eq] at hok
    obtain ⟨⟨h1, h2⟩, h3⟩ := hok
    rw [chainLoop]
    have hpo : p inp out = p inp [] := hins p (by simp) inp out []
    rw [hpo]
    simp only [h1, ne_eq, not_true_eq_false, if_false, if_neg h2]
    have : rewrites (p :: ps) inp = rewrites ps ((p inp []).2) := rfl
    rw [this]
    exact ih _ _ (fun q hq => hins q (by simp [hq])) h3

/-- C4 (amended) — part one: a preprocessor that consumes the line
(empty output, no error) stops the chain with `Executed`, for every
suffix of later preprocessors and every mode stack, so the command tree
is never reached.  Part two: *provided every preprocessor's output is
independent of the stale contents of the reused output buffer*, a clean
chain dispatches exactly the composition of the rewrites in registration
order to the active mode's root. -/
theorem c4_chain :
    (∀ (ps1 : List Preprocessor) (p : Preprocessor) (cmd i o : Str),
      cmd ≠ [] →
      chainExec ps1 cmd [] = some (i, o) →
      (p i o).1 = [] → (p i o).2 = [] →
      ∀ (ps2 : List Preprocessor) (active : Cmd) (stack : List Cmd) (le0 : Str),
        process (active :: stack) (ps1 ++ p :: ps2) le0 cmd = ([], .executed)) ∧
    (∀ (pps : List Preprocessor) (cmd : Str),
      cmd ≠ [] → pps ≠ [] →
      (∀ p ∈ pps, ∀ s o1 o2, p s o1 = p s o2) →
      chainOk pps cmd = true →
      ∀ (active : Cmd) (stack : List Cmd) (le0 : Str),
        process (active :: stack) pps le0 cmd =
          Cmd.exec true active [] (rewrites pps cmd)) := by
  constructor
  · intro ps1 p cmd i o hcmd hpre h1 h2 ps2 active stack le0
    have hne : (ps1 ++ p :: ps2).isEmpty = false := by cases ps1 <;> simp
    simp only [process, if_neg hcmd, hne, Bool.false_eq_true, if_false]
    rw [chainLoop_append active ps1 (p :: ps2) cmd [] i o hpre]
    rw [chainLoop]
    simp [h1, h2]
  · intro pps cmd hcmd hpps hins hok active stack le0
    have hne : pps.isEmpty = false := by cases pps with
      | nil => exact absurd rfl hpps
      | cons a b => simp
    simp only [process, if_neg hcmd, hne, Bool.false_eq_true, if_false]
    exact chainLoop_ok active pps cmd [] hins hok

/-- Witness for C4: part one at an erasing preprocessor, part two at a
single buffer-insensitive rewriting preprocessor. -/
theorem c4_chain_witness :
    process [Cmd.node ("m").data [] none []]
        ([] ++ (fun _ _ => ([], [])) :: [(fun _ _ => ([], ("q").data) : Preprocessor)])
        [] ("x").data = ([], .executed) ∧
    process [Cmd.node ("m").data [] none []]
        [(fun s _ => ([], s ++ ("!").data) : Preprocessor)] [] ("x").data =
      Cmd.exec true (Cmd.node ("m").data [] none []) []
        (rewrites [(fun s _ => ([], s ++ ("!").data) : Preprocessor)] ("x").data) :=
  ⟨c4_chain.1 [] (fun _ _ => ([], [])) ("x").data ("x").data [] (by decide)
      (by simp [chainExec]) rfl rfl
      [(fun _ _ => ([], ("q").data))] (Cmd.node ("m").data [] none []) [] [],
   c4_chain.2 [(fun s _ => ([], s ++ ("!").data))] ("x").data (by decide)
      (by simp) (by intro p hp s o1 o2; simp at hp; simp [hp])
      (by simp [chainOk, rewrites]) (Cmd.node ("m").data [] none []) [] []⟩

/-- Counterexample to C4 as stated: the repository's own
variables-engine preprocessor *appends* to the reused output buffer, so
with two engine preprocessors the string reaching the command tree is
"$x1" — the stale input with the rewrite appended — and not the
composition of the rewrites, which is "1". -/
theorem c4_counterexample :
    process [Cmd.node ("m").data [] none []]
        [variablesFunctor [(("x").data, ("1").data)], variablesFunctor []]
        [] ("$x").data =
      ((("$x1: command not found")).data, .noCommand) ∧
    rewrites [variablesFunctor [(("x").data, ("1").data)], variablesFunctor []]
        ("$x").data = ("1").data ∧
    Cmd.exec true (Cmd.node ("m").data [] none []) [] ("1").data =
      ((("1: command not found")).data, .noCommand) ∧
    ((("$x1: command not found")).data : Str) ≠ (("1: command not found")).data := by
  refine ⟨?_, ?_, ?_, ?_⟩ <;> decide

/-! ## C8: adding children -/

/-- C8 — `add` fails exactly on an empty name or a sibling-name
collision; two distinct fresh non-empty names both succeed, the children
are appended in order, sibling names stay duplicate-free, and re-adding
the first name fails. -/
theorem c8_add :
    (∀ (t : Cmd) (nm d : Str),
      t.add nm d = none ↔
        (nm = [] ∨ t.children.any (fun c => c.name = nm) = true)) ∧
    (∀ (n desc : Str) (h : Option Handler) (cs : List Cmd) (nm1 nm2 d1 d2 : Str),
      nm1 ≠ [] → nm2 ≠ [] → nm1 ≠ nm2 →
      cs.any (fun c => c.name = nm1) = false →
      cs.any (fun c => c.name = nm2) = false →
      (Cmd.node n desc h cs).add nm1 d1 =
          some (Cmd.node n desc h (cs ++ [Cmd.node nm1 d1 none []])) ∧
      (Cmd.node n desc h (cs ++ [Cmd.node nm1 d1 none []])).add nm2 d2 =
          some (Cmd.node n desc h
            ((cs ++ [Cmd.node nm1 d1 none []]) ++ [Cmd.node nm2 d2 none []])) ∧
      ((cs.map Cmd.name).Nodup →
        (((cs ++ [Cmd.node nm1 d1 none []]) ++ [Cmd.node nm2 d2 none []]).map
            Cmd.name).Nodup) ∧
      (Cmd.node n desc h (cs ++ [Cmd.node nm1 d1 none []])).add nm1 d2 = none) := by
  constructor
  · intro t nm d
    cases t with
    | node n desc h cs =>
      by_cases hc : nm = [] ∨ cs.any (fun c => c.name = nm) = true
      · simp only [Cmd.add, if_pos hc, Cmd.children_node]
        exact iff_of_true (by simp) hc
      · simp only [Cmd.add, if_neg hc, Cmd.children_node]
        exact iff_of_false (by simp) hc
  · intro n desc h cs nm1 nm2 d1 d2 h1 h2 hne hc1 hc2
    have hn1 : ¬ (nm1 = [] ∨ cs.any (fun c => c.name = nm1) = true) :=
      not_or.mpr ⟨h1, by rw [hc1]; simp⟩
    have hany2 : (cs ++ [Cmd.node nm1 d1 none []]).any (fun c => c.name = nm2) = false := by
      rw [List.any_append, hc2]
      simp [hne]
    have hn2 : ¬ (nm2 = [] ∨
        (cs ++ [Cmd.node nm1 d1 none []]).any (fun c => c.name = nm2) = true) :=
      not_or.mpr ⟨h2, by rw [hany2]; simp⟩
    refine ⟨by simp only [Cmd.add, if_neg hn1], by simp only [Cmd.add, if_neg hn2], ?_, ?_⟩
    · intro hnd
      have hm1 : nm1 ∉ cs.map Cmd.name := by
        intro hmem
        rcases List.mem_map.mp hmem with ⟨c, hcmem, hcn⟩
        have hx : cs.any (fun c => c.name = nm1) = true :=
          List.any_eq_true.mpr ⟨c, hcmem, by simp [hcn]⟩
        rw [hc1] at hx; cases hx
      have hm2 : nm2 ∉ cs.map Cmd.name := by
        intro hmem
        rcases List.mem_map.mp hmem with ⟨c, hcmem, hcn⟩
        have hx : cs.any (fun c => c.name = nm2) = true :=
          List.any_eq_true.mpr ⟨c, hcmem, by simp [hcn]⟩
        rw [hc2] at hx; cases hx
      simp only [List.map_append, List.map_cons, List.map_nil, Cmd.name_node,
        List.append_assoc, List.singleton_append]
      rw [List.nodup_append]
      refine ⟨hnd, by simp [hne], ?_⟩
      intro a ha hmem
      simp only [List.mem_cons, List.not_mem_nil, or_false] at hmem
      cases hmem with
      | inl hx => exact hm1 (hx ▸ ha)
      | inr hx => exact hm2 (hx ▸ ha)
    · have hagain : (Cmd.node nm1 d1 none []).name = nm1 ∨ False := Or.inl rfl
      have hx : (cs ++ [Cmd.node nm1 d1 none []]).any (fun c => c.name = nm1) = true := by
        rw [List.any_append]
        simp
      have : (nm1 = [] ∨
          (cs ++ [Cmd.node nm1 d1 none []]).any (fun c => c.name = nm1) = true) :=
        Or.inr hx
      simp only [Cmd.add, if_pos this]

/-- Witness for C8 on a fresh root with names "foo" and "bar". -/
theorem c8_add_witness :
    (Cmd.node ("m").data [] none []).add ("foo").data ("d1").data =
        some (Cmd.node ("m").data [] none
          ([] ++ [Cmd.node ("foo").data ("d1").data none []])) ∧
    (Cmd.node ("m").data [] none
        ([] ++ [Cmd.node ("foo").data ("d1").data none []])).add
        ("bar").data ("d2").data =
      some (Cmd.node ("m").data [] none
        (([] ++ [Cmd.node ("foo").data ("d1").data none []]) ++
          [Cmd.node ("bar").data ("d2").data none []])) ∧
    ((([] : List Cmd).map Cmd.name).Nodup →
      ((([] ++ [Cmd.node ("foo").data ("d1").data none []]) ++
        [Cmd.node ("bar").data ("d2").data none []]).map Cmd.name).Nodup) ∧
    (Cmd.node ("m").data [] none
        ([] ++ [Cmd.node ("foo").data ("d1").data none []])).add
        ("foo").data ("d2").data = none :=
  c8_add.2 ("m").data [] none [] ("foo").data ("bar").data ("d1").data ("d2").data
    (by decide) (by decide) (by decide) (by simp) (by simp)

/-! ## C7: absolute names -/

lemma joinNames_cons (y : Str) (M : List Str) (hM : M ≠ []) :
    joinNames (y :: M) = y ++ ' ' :: joinNames M := by
  cases M with
  | nil => exact absurd rfl hM
  | cons z M => rfl

lemma joinNames_append_pair (L : List Str) (a x : Str) :
    joinNames (L ++ [a ++ ' ' :: x]) = joinNames (L ++ [a, x]) := by
  induction L with
  | nil => rfl
  | cons y L ih =>
    rw [List.cons_append, List.cons_append,
      joinNames_cons y (L ++ [a ++ ' ' :: x]) (by simp),
      joinNames_cons y (L ++ [a, x]) (by simp), ih]

/-- The inner loop of `absolute_name`: folding the ancestors over a
non-empty reversed accumulator builds the reversed space-separated
join. -/
lemma absoluteName_foldl (as : List Str) :
    ∀ r : Str, r ≠ [] →
      joinNames (as.reverse ++ [r.reverse]) =
        (as.foldl (fun r a => (if r ≠ [] then r ++ [' '] else r) ++ a.reverse)
          r).reverse := by
  induction as with
  | nil => intro r hr; simp [joinNames]
  | cons a as ih =>
    intro r hr
    rw [List.foldl_cons]
    have hstep : (if r ≠ [] then r ++ [' '] else r) ++ a.reverse
        = r ++ ' ' :: a.reverse := by
      rw [if_pos hr]; simp
    rw [hstep]
    have hne : r ++ ' ' :: a.reverse ≠ [] := by simp
    rw [← ih (r ++ ' ' :: a.reverse) hne]
    have hrev : (r ++ ' ' :: a.reverse).reverse = a ++ ' ' :: r.reverse := by
      simp
    rw [hrev, joinNames_append_pair, List.reverse_cons, List.append_assoc,
      List.singleton_append]

/-- C7 (amended) — the root's own absolute name is empty; for every
other node, `absolute_name` joins the names on the path from the root
down to the node with single spaces, with the ROOT'S NAME INCLUDED as
the first component (the loop `for (auto i = parent_; …)` also visits
the root and always prepends a separator, so an empty-named root yields
a leading space). -/
theorem c7_absolute_name :
    (∀ name : Str, absoluteName name [] = []) ∧
    (∀ (name : Str) (ancestors : List Str), name ≠ [] → ancestors ≠ [] →
      absoluteName name ancestors = joinNames (ancestors.reverse ++ [name])) := by
  constructor
  · intro name; simp [absoluteName]
  · intro name ancs hn ha
    rw [absoluteName, if_neg (by simp [ha])]
    have h := absoluteName_foldl ancs name.reverse (by simp [hn])
    rw [List.reverse_reverse] at h
    exact h.symm

/-- Witness for C7 with a mode-named root "default" above "foo" above
"bar". -/
theorem c7_absolute_name_witness :
    absoluteName ("bar").data [("foo").data, ("default").data] =
      joinNames ([("foo").data, ("default").data].reverse ++ [("bar").data]) :=
  c7_absolute_name.2 ("bar").data [("foo").data, ("default").data]
    (by decide) (by simp)

/-- Counterexample to C7 as stated: with the empty-named root of a
direct construction, `bar` below `foo` below the root has absolute name
" foo bar" (leading space), not "foo bar"; with a mode-created root the
mode's name is prepended. -/
theorem c7_counterexample :
    absoluteName ("bar").data [("foo").data, []] = (" foo bar").data ∧
    ((" foo bar").data : Str) ≠ ("foo bar").data ∧
    absoluteName ("bar").data [("foo").data, ("default").data] =
      ("default foo bar").data ∧
    (("default foo bar").data : Str) ≠ ("foo bar").data := by
  refine ⟨?_, ?_, ?_, ?_⟩ <;> decide

/-! ## C3: error behaviour of the variable engine -/

/-- C3 (amended) — representative inputs for the five error cases, with
arbitrary prior contents of `err`, `out` and an arbitrary binding table.
The three after-`$` errors (dangling `$`, `$$`, unexpected character)
carry a position-qualified message and clear the output; the
invalid-character-inside-braces error carries a position-qualified
message but leaves the accumulated output in place; the missing-`}`
error carries the position-less message "syntax error: missing '}' at
end of line" and also leaves the accumulated (and even substituted)
output in place.  In every case the binding table is returned
unmodified. -/
theorem c3_errors :
    ∀ (err0 out0 : Str) (vars : Bindings),
      parse err0 ("$").data out0 false vars =
        (errAt 1 (("$ at end of line")).data, [], vars) ∧
      parse err0 ("$$").data out0 false vars =
        (errAt 1 (("$$ is not a valid expression")).data, [], vars) ∧
      parse err0 ("$!").data out0 false vars =
        (errAt 1 ((("unexpected character '")).data ++ ['!'] ++ (("' after $")).data),
         [], vars) ∧
      parse err0 ("A$\x7ba!\x7d").data out0 false vars =
        (errAt 4 ('\'' :: ['!'] ++ (("' is an invalid character inside $\x7b...\x7d")).data),
         out0 ++ ("A").data, vars) ∧
      parse err0 ("A$\x7babc").data out0 false vars =
        (missingBraceMsg,
         (out0 ++ ("A").data) ++ (lookupVar vars ("abc").data).getD [], vars) := by
  intro err0 out0 vars
  refine ⟨rfl, rfl, rfl, rfl, rfl⟩

/-- Counterexample to C3 as stated: the missing-`}` message does not
begin with "syntax error at position ", and the invalid-character error
leaves the output accumulated so far ("A") in place instead of clearing
it. -/
theorem c3_counterexample :
    (parse [] ("$\x7babc").data [] false []).1 = missingBraceMsg ∧
    missingBraceMsg.take 25 ≠ (("syntax error at position ")).data ∧
    (parse [] ("A$\x7ba!\x7d").data [] false []).2.1 = ("A").data ∧
    (("A").data : Str) ≠ [] := by
  refine ⟨?_, ?_, ?_, ?_⟩ <;> decide

/-! ## C6: set / parse round trip -/

lemma validVarnameChar_ne (c : Char) (hc : validVarnameChar c = true) :
    c ≠ '=' ∧ c ≠ '$' ∧ c ≠ '{' ∧ c ≠ '}' := by
  refine ⟨?_, ?_, ?_, ?_⟩ <;>
    (intro h; subst h; exact absurd hc (by decide))

/-- Scanning a run of identifier characters in state `read_variable`
accumulates them into the pending variable name and, at end of input,
substitutes the binding (empty if unbound). -/
lemma scanVarTop (err0 : Str) (vars : Bindings) (cs : Str)
    (hall : cs.all validVarnameChar = true) :
    ∀ (i : Nat) (pending : Str) (lastc : Char) (out : Str),
      parseTopAux err0 vars cs i pending false .readVariable lastc out =
        ⟨[], none, out ++ (lookupVar vars (pending ++ cs)).getD [], vars⟩ := by
  induction cs with
  | nil => intro i pending lastc out; simp [parseTopAux]
  | cons c cs ih =>
    have hc : validVarnameChar c = true := by
      simp only [List.all_cons, Bool.and_eq_true] at hall; exact hall.1
    have hall2 : cs.all validVarnameChar = true := by
      simp only [List.all_cons, Bool.and_eq_true] at hall; exact hall.2
    obtain ⟨he, hdol, hbrace, hclose⟩ := validVarnameChar_ne c hc
    intro i pending lastc out
    rw [parseTopAux, if_neg he, if_neg hdol, if_neg hbrace,
      if_neg (by simp : ¬ (c = '}' ∧ VState.readVariable = VState.readBracedVariable))]
    simp only [if_pos hc]
    rw [ih hall2, List.append_assoc, List.singleton_append]

/-- C6 (amended) — for every *non-empty identifier* name (characters
alphanumeric or underscore) and every value, `set(name, value)` followed
by a parse of `$name` into an empty output buffer substitutes exactly
the value and reports no error; parsing `${x}` with no binding for `x`
yields empty output and no error (unbound means empty substitution, not
an error). -/
theorem c6_roundtrip :
    (∀ (name value err0 : Str) (vars : Bindings),
      name ≠ [] → name.all validVarnameChar = true →
      parse err0 ('$' :: name) [] false (setVar vars name value) =
        (err0, value, setVar vars name value)) ∧
    (∀ (err0 : Str) (vars : Bindings), lookupVar vars ("x").data = none →
      parse err0 ("$\x7bx\x7d").data [] false vars = (err0, [], vars)) := by
  constructor
  · intro name value err0 vars hne hall
    cases name with
    | nil => exact absurd rfl hne
    | cons c cs =>
      have hc : validVarnameChar c = true := by
        simp only [List.all_cons, Bool.and_eq_true] at hall; exact hall.1
      have hall2 : cs.all validVarnameChar = true := by
        simp only [List.all_cons, Bool.and_eq_true] at hall; exact hall.2
      obtain ⟨he, hdol, hbrace, hclose⟩ := validVarnameChar_ne c hc
      have step1 : parse err0 ('$' :: c :: cs) [] false (setVar vars (c :: cs) value) =
          (finishErr err0 (parseTopAux err0 (setVar vars (c :: cs) value)
              (c :: cs) 1 [] false .afterDollarSign '$' []),
           (parseTopAux err0 (setVar vars (c :: cs) value)
              (c :: cs) 1 [] false .afterDollarSign '$' []).out,
           (parseTopAux err0 (setVar vars (c :: cs) value)
              (c :: cs) 1 [] false .afterDollarSign '$' []).vars) := rfl
      rw [step1, parseTopAux, if_neg he, if_neg hdol, if_neg hbrace,
        if_neg (by simp : ¬ (c = '}' ∧ VState.afterDollarSign = VState.readBracedVariable))]
      simp only [if_pos hc]
      rw [scanVarTop err0 (setVar vars (c :: cs) value) cs hall2]
      simp only [List.singleton_append, List.nil_append,
        lookupVar_setVar, Option.getD_some]
      simp [finishErr]
  · intro err0 vars h
    have key : parse err0 ("$\x7bx\x7d").data [] false vars =
        (finishErr err0 ⟨[], none,
           ([] ++ (lookupVar vars (['x'] : Str)).getD []) ++ [], vars⟩,
         ([] ++ (lookupVar vars (['x'] : Str)).getD []) ++ [],
         vars) := rfl
    rw [key, show (['x'] : Str) = ("x").data from rfl, h]
    simp [finishErr]

/-- Witness for C6 at `set("x","hello")` and the unbound `${x}`. -/
theorem c6_roundtrip_witness :
    parse [] ('$' :: ("x").data) [] false (setVar [] ("x").data ("hello").data) =
      ([], ("hello").data, setVar [] ("x").data ("hello").data) ∧
    parse [] ("$\x7bx\x7d").data [] false [] = ([], [], []) :=
  ⟨c6_roundtrip.1 ("x").data ("hello").data [] [] (by decide) (by decide),
   c6_roundtrip.2 [] [] (by decide)⟩

/-- Counterexample to C6 as stated ("for every name and value"): the
name "x!" is storable via `set`, but parsing `$x!` reads only the
identifier prefix `x` (unbound, hence empty) and copies the `!`, so the
output is "!" and not the stored value "v" — yet no error is
reported. -/
theorem c6_counterexample :
    (parse [] ("$x!").data [] false (setVar [] ("x!").data ("v").data)).2.1 =
      ("!").data ∧
    (("!").data : Str) ≠ ("v").data ∧
    (parse [] ("$x!").data [] false (setVar [] ("x!").data ("v").data)).1 = [] := by
  refine ⟨?_, ?_, ?_⟩ <;> decide

/-! ## C2 / C10: assignment lines -/

/-- Scanning a run of identifier characters in state `traverse` with
`pos` still at the start of the line reaches the first `=` with the key
accumulated, and the `case '='` branch then performs the assignment:
the right-hand side is sub-parsed into a fresh value buffer, the
output is cleared, and the binding is `emplace`d only when the error
string is empty afterwards. -/
lemma scanKeyAux (err0 : Str) (vars : Bindings) (rhs : Str) :
    ∀ (key : Str), key.all validVarnameChar = true →
      ∀ (pending : Str) (i : Nat) (lastc : Char) (out : Str),
        pending.all validVarnameChar = true → pending ++ key ≠ [] →
        parseTopAux err0 vars (key ++ '=' :: rhs) i pending true .traverse lastc out =
          ⟨[], some (finishErr err0 (parseSubAux vars rhs 0 [] .traverse ' ' [])), [],
           if finishErr err0 (parseSubAux vars rhs 0 [] .traverse ' ' []) = []
           then emplaceVar vars (pending ++ key)
             (parseSubAux vars rhs 0 [] .traverse ' ' []).out
           else vars⟩ := by
  intro key
  induction key with
  | nil =>
    intro hall pending i lastc out hp hne
    rw [List.nil_append, parseTopAux, if_pos rfl,
      if_pos (⟨by simpa using hne, rfl, hp⟩ :
        pending ≠ [] ∧ (true : Bool) = true ∧ pending.all validVarnameChar = true)]
    rw [List.append_nil]
  | cons c key ih =>
    intro hall pending i lastc out hp hne
    have hc : validVarnameChar c = true := by
      simp only [List.all_cons, Bool.and_eq_true] at hall; exact hall.1
    have hall2 : key.all validVarnameChar = true := by
      simp only [List.all_cons, Bool.and_eq_true] at hall; exact hall.2
    obtain ⟨he, hdol, hbrace, hclose⟩ := validVarnameChar_ne c hc
    rw [List.cons_append, parseTopAux, if_neg he, if_neg hdol, if_neg hbrace,
      if_neg (by simp : ¬ (c = '}' ∧ VState.traverse = VState.readBracedVariable))]
    rw [ih hall2 (pending ++ [c]) (i + 1) c out
      (by simp [List.all_append, hp, hc]) (by simp)]
    rw [List.append_assoc, List.singleton_append]

/-- The general characterization of assignment lines, shared by the
claims about them: a top-level parse of `key=rhs` (key a non-empty
identifier run) sub-parses `rhs`, clears the output, and commits the
binding via `emplace` exactly when the resulting error string is
empty. -/
lemma parse_assignment (key rhs err0 out0 : Str) (vars : Bindings)
    (hk : key ≠ []) (hall : key.all validVarnameChar = true) :
    parse err0 (key ++ '=' :: rhs) out0 false vars =
      ((parse err0 rhs [] true vars).1, [],
       if (parse err0 rhs [] true vars).1 = []
       then emplaceVar vars key (parse err0 rhs [] true vars).2.1
       else vars) := by
  have hrun := scanKeyAux err0 vars rhs key hall [] 0 ' ' out0 rfl (by simpa using hk)
  rw [List.nil_append] at hrun
  show (finishErr err0 (parseTopAux err0 vars (key ++ '=' :: rhs) 0 [] true .traverse ' ' out0),
        (parseTopAux err0 vars (key ++ '=' :: rhs) 0 [] true .traverse ' ' out0).out,
        (parseTopAux err0 vars (key ++ '=' :: rhs) 0 [] true .traverse ' ' out0).vars) = _
  rw [hrun]
  simp [finishErr, parse]

/-- C2 (amended) — every line whose first `=` is preceded by a
non-empty run of identifier characters from the start of the line is
recognized as an assignment by a top-level parse: the substring after
the `=` is sub-parsed to resolve variables first, the visible output is
cleared, and on sub-parse success the binding is stored *via `emplace`*,
i.e. only when the name is not already bound (an existing binding keeps
its old value); on sub-parse failure nothing is committed.  The claim's
concrete instance (fresh name `x`, prior binding `y = "z"`) stores
`x -> "z"` with empty output and error, and `$x` then yields "z". -/
theorem c2_assignment :
    (∀ (key rhs err0 out0 : Str) (vars : Bindings),
      key ≠ [] → key.all validVarnameChar = true →
      parse err0 (key ++ '=' :: rhs) out0 false vars =
        ((parse err0 rhs [] true vars).1, [],
         if (parse err0 rhs [] true vars).1 = []
         then emplaceVar vars key (parse err0 rhs [] true vars).2.1
         else vars)) ∧
    (parse [] ("x=$y").data [] false [(("y").data, ("z").data)] =
        ([], [], [(("y").data, ("z").data), (("x").data, ("z").data)]) ∧
      parse [] ("$x").data [] false
          [(("y").data, ("z").data), (("x").data, ("z").data)] =
        ([], ("z").data, [(("y").data, ("z").data), (("x").data, ("z").data)])) := by
  constructor
  · exact fun key rhs err0 out0 vars hk hall =>
      parse_assignment key rhs err0 out0 vars hk hall
  · exact ⟨by decide, by decide⟩

/-- Witness for C2: assigning to the fresh name `a` with right-hand
side `$y` under the prior binding `y = "z"`. -/
theorem c2_assignment_witness :
    parse [] (("a").data ++ '=' :: ("$y").data) [] false [(("y").data, ("z").data)] =
      ((parse [] ("$y").data [] true [(("y").data, ("z").data)]).1, [],
       if (parse [] ("$y").data [] true [(("y").data, ("z").data)]).1 = []
       then emplaceVar [(("y").data, ("z").data)] ("a").data
         (parse [] ("$y").data [] true [(("y").data, ("z").data)]).2.1
       else [(("y").data, ("z").data)]) :=
  c2_assignment.1 ("a").data ("$y").data [] [] [(("y").data, ("z").data)]
    (by decide) (by decide)

/-- Counterexample to C2 as stated: with `x` already bound to "a",
the assignment line `x=b` is consumed (no output, no error) but
`emplace` does not store the resolved value "b"; `x` stays bound to
"a". -/
theorem c2_counterexample :
    parse [] ("x=b").data [] false [(("x").data, ("a").data)] =
      ([], [], [(("x").data, ("a").data)]) ∧
    lookupVar [(("x").data, ("a").data)] ("x").data = some ("a").data ∧
    (("a").data : Str) ≠ ("b").data := by
  refine ⟨?_, ?_, ?_⟩ <;> decide

/-! ## C10: assignments never overwrite -/

/-- C10 — an assignment line for an already-bound name consumes the
line (empty output, error passed through from the sub-parse of the
right-hand side, bindings unchanged in every case because `emplace` is
a no-op on a bound key), while `set` does replace the value.  The
concrete instance: after `set("x","a")`, parsing `x=b` leaves `x` bound
to "a". -/
theorem c10_no_overwrite :
    (∀ (vars : Bindings) (key rhs out0 v0 : Str),
      key ≠ [] → key.all validVarnameChar = true →
      lookupVar vars key = some v0 →
      parse [] (key ++ '=' :: rhs) out0 false vars =
        ((parse [] rhs [] true vars).1, [], vars)) ∧
    (∀ (vars : Bindings) (key v : Str),
      lookupVar (setVar vars key v) key = some v) ∧
    (parse [] ("x=b").data [] false (setVar [] ("x").data ("a").data) =
      ([], [], [(("x").data, ("a").data)])) := by
  refine ⟨?_, lookupVar_setVar, by decide⟩
  intro vars key rhs out0 v0 hk hall hbound
  rw [parse_assignment key rhs [] out0 vars hk hall]
  rw [emplaceVar_of_bound vars key _ v0 hbound]
  simp

/-- Witness for C10: `x` bound to "a", then the line `x=b`. -/
theorem c10_no_overwrite_witness :
    parse [] (("x").data ++ '=' :: ("b").data) [] false [(("x").data, ("a").data)] =
      ((parse [] ("b").data [] true [(("x").data, ("a").data)]).1, [],
       [(("x").data, ("a").data)]) :=
  c10_no_overwrite.1 [(("x").data, ("a").data)] ("x").data ("b").data [] ("a").data
    (by decide) (by decide) (by decide)

/-! ## C1: command execution -/

lemma splitAtSpace_eq (s : Str) :
    (splitAtSpace s).1 = s.takeWhile (fun c => c ≠ ' ') ∧
    (splitAtSpace s).2.getD [] = (s.dropWhile (fun c => c ≠ ' ')).drop 1 := by
  induction s with
  | nil => simp [splitAtSpace]
  | cons c cs ih =>
    by_cases hc : c = ' '
    · subst hc
      simp [splitAtSpace]
    · simp [splitAtSpace, hc, ih.1, ih.2]

lemma execFirstMatch_eq (tok rest err : Str) (cs : List Cmd) :
    Cmd.execFirstMatch tok rest err cs =
      (cs.find? (fun c => c.name = tok)).map (fun c => Cmd.exec false c err rest) := by
  induction cs with
  | nil => simp [Cmd.execFirstMatch]
  | cons c cs ih =>
    by_cases hc : c.name = tok
    · rw [Cmd.execFirstMatch, if_pos hc, List.find?_cons_of_pos _ (by simp [hc])]
      rfl
    · rw [Cmd.execFirstMatch, if_neg hc, List.find?_cons_of_neg _ (by simp [hc])]
      exact ih

lemma execSpecC1_eq_some (b : Bool) (nm d err inp : Str) (h : Option Handler)
    (cs : List Cmd) (c : Cmd)
    (hb : ¬ (b = true ∧ inp = []))
    (hf : cs.find? (fun x => x.name = inp.takeWhile (fun ch => ch ≠ ' ')) = some c) :
    execSpecC1 b (Cmd.node nm d h cs) err inp =
      execSpecC1 false c err ((inp.dropWhile (fun ch => ch ≠ ' ')).drop 1) := by
  rw [execSpecC1, if_neg hb]
  simp only [Cmd.children_node, Cmd.handler_node]
  split
  · rename_i c2 hm
    rw [hf] at hm
    injection hm with h2
    rw [h2]
  · rename_i hm
    rw [hf] at hm
    cases hm

lemma execSpecC1_eq_none (b : Bool) (nm d err inp : Str) (h : Option Handler)
    (cs : List Cmd)
    (hb : ¬ (b = true ∧ inp = []))
    (hf : cs.find? (fun x => x.name = inp.takeWhile (fun ch => ch ≠ ' ')) = none) :
    execSpecC1 b (Cmd.node nm d h cs) err inp =
      (match h with
       | some f => f err inp
       | none => (inp.takeWhile (fun ch => ch ≠ ' ') ++ (": command not found").data,
                  .noCommand)) := by
  rw [execSpecC1, if_neg hb]
  simp only [Cmd.children_node, Cmd.handler_node]
  split
  · rename_i c2 hm
    rw [hf] at hm
    cases hm
  · rfl

/-- C1 — `execute` satisfies the specification's description (the
refinement `exec = execSpecC1`, where `execSpecC1` is transcribed from
the spec's words), and dispatching "foo bar baz" against a tree with
`foo -> bar` (bar carrying a handler) invokes bar's handler with `err`
passed through and remaining input exactly "baz", for every handler. -/
theorem c1_execute :
    (∀ (b : Bool) (t : Cmd) (err inp : Str),
      Cmd.exec b t err inp = execSpecC1 b t err inp) ∧
    (∀ (h : Handler) (err : Str),
      Cmd.exec true
        (Cmd.node ("m").data [] none
          [Cmd.node ("foo").data [] none
            [Cmd.node ("bar").data [] (some h) []]]) err ("foo bar baz").data
        = h err ("baz").data) := by
  constructor
  · have main : ∀ (n : Nat) (t : Cmd), sizeOf t < n → ∀ (b : Bool) (err inp : Str),
        Cmd.exec b t err inp = execSpecC1 b t err inp := by
      intro n
      induction n with
      | zero => intro t ht; omega
      | succ n ih =>
        intro t ht b err inp
        cases t with
        | node nm d h cs =>
          by_cases hb : b = true ∧ inp = []
          · rw [Cmd.exec, if_pos hb, execSpecC1, if_pos hb]
          · rw [Cmd.exec, if_neg hb]
            simp only [execFirstMatch_eq, (splitAtSpace_eq inp).1,
              (splitAtSpace_eq inp).2]
            cases hf : cs.find? (fun x => x.name = inp.takeWhile (fun ch => ch ≠ ' ')) with
            | some c =>
              have hmem := List.mem_of_find?_eq_some hf
              have hsz : sizeOf c < sizeOf (Cmd.node nm d h cs) := by
                have h1 := List.sizeOf_lt_of_mem hmem
                simp only [Cmd.node.sizeOf_spec]
                omega
              rw [execSpecC1_eq_some b nm d err inp h cs c hb hf]
              exact ih c (by omega) false err _
            | none =>
              rw [execSpecC1_eq_none b nm d err inp h cs hb hf]
              cases h <;> rfl
    exact fun b t err inp => main (sizeOf t + 1) t (by omega) b err inp
  · intro h err
    rfl

end Sash
